import Mathlib

/-!
Shallow embedding of `script.py`, a batch extractor that pulls JPEG entries
out of Google-Takeout zip archives into a merged destination tree.

Strings are Lean `String`s; Python string primitives that the script relies on
(`str.lower`, lexicographic `<` on code points, `pathlib.Path.stem/.suffix`,
`str(int)`) are embedded as executable definitions below.  Filesystem state is
a list of (full path, content) pairs; paths are lists of components.
-/

namespace Script

/-- Python `str.lower` on a single character, for the ASCII range the script's
inputs use: `A`–`Z` maps to `a`–`z`, everything else is unchanged. -/
def lowerChar (c : Char) : Char :=
  if 'A' ≤ c ∧ c ≤ 'Z' then Char.ofNat (c.toNat + 32) else c

/-- Python `str.lower` of a string, viewed as its list of characters. -/
def lowerKey (s : String) : List Char := s.data.map lowerChar

/-- Python `str.lower` as a string-to-string function. -/
def lowerStr (s : String) : String := (lowerKey s).asString

/-- Python's `<`/`<=` on strings is lexicographic comparison of code points;
`lexLe a b` says the character list `a` compares `<=` to `b`. -/
def lexLe : List Char → List Char → Bool
  | [], _ => true
  | _ :: _, [] => false
  | a :: as, b :: bs =>
    if a.toNat < b.toNat then true
    else if b.toNat < a.toNat then false
    else lexLe as bs

/-- The comparison used by `sorted(…, key=lambda p: p.name.lower())` and by
`sorted(successful_zips, key=str.lower)`: compare the lowercased names. -/
def nameLe (a b : String) : Bool := lexLe (lowerKey a) (lowerKey b)

theorem lexLe_total : ∀ a b : List Char, (lexLe a b || lexLe b a) = true
  | [], b => by cases b <;> simp [lexLe]
  | _ :: _, [] => by simp [lexLe]
  | a :: as, b :: bs => by
    simp only [lexLe]
    rcases Nat.lt_trichotomy a.toNat b.toNat with h | h | h
    · simp [h]
    · simp only [h, Nat.lt_irrefl, if_false, if_neg (Nat.lt_irrefl _)]
      exact lexLe_total as bs
    · simp [h, Nat.not_lt.mpr (Nat.le_of_lt h)]

theorem lexLe_trans : ∀ a b c : List Char,
    lexLe a b = true → lexLe b c = true → lexLe a c = true
  | [], _, c => by intro _ _; cases c <;> simp [lexLe]
  | _ :: _, [], _ => by simp [lexLe]
  | _ :: _, _ :: _, [] => by intro _ h; simp [lexLe] at h
  | a :: as, b :: bs, c :: cs => by
    intro h₁ h₂
    simp only [lexLe] at h₁ h₂ ⊢
    by_cases hab : a.toNat < b.toNat
    · by_cases hbc : b.toNat < c.toNat
      · rw [if_pos (by omega)]
      · by_cases hcb : c.toNat < b.toNat
        · rw [if_neg hbc, if_pos hcb] at h₂
          simp at h₂
        · rw [if_pos (by omega)]
    · by_cases hba : b.toNat < a.toNat
      · rw [if_neg hab, if_pos hba] at h₁
        simp at h₁
      · by_cases hbc : b.toNat < c.toNat
        · rw [if_pos (by omega)]
        · by_cases hcb : c.toNat < b.toNat
          · rw [if_neg hbc, if_pos hcb] at h₂
            simp at h₂
          · rw [if_neg hab, if_neg hba] at h₁
            rw [if_neg hbc, if_neg hcb] at h₂
            rw [if_neg (by omega), if_neg (by omega)]
            exact lexLe_trans as bs cs h₁ h₂

theorem nameLe_total (a b : String) : (nameLe a b || nameLe b a) = true :=
  lexLe_total _ _

theorem nameLe_trans (a b c : String) (h₁ : nameLe a b = true) (h₂ : nameLe b c = true) :
    nameLe a c = true :=
  lexLe_trans _ _ _ h₁ h₂

/-- Index of the split point used by `pathlib.PurePath.stem`/`.suffix`:
the position `i` of the last `.` in the name, provided `0 < i < len(name) - 1`;
otherwise the name has no suffix. -/
def pysplitIdx (cs : List Char) : Option Nat :=
  match cs.reverse.findIdx? (· == '.') with
  | none => none
  | some j =>
    let i := cs.length - 1 - j
    if 0 < i ∧ i < cs.length - 1 then some i else none

/-- Python `Path(name).stem`: the final component without its suffix. -/
def pystem (n : String) : String :=
  match pysplitIdx n.data with
  | some i => (n.data.take i).asString
  | none => n

/-- Python `Path(name).suffix`: the extension of the final component,
`""` when there is none. -/
def pysuffix (n : String) : String :=
  match pysplitIdx n.data with
  | some i => (n.data.drop i).asString
  | none => ""

theorem pystem_append_pysuffix (n : String) : pystem n ++ pysuffix n = n := by
  unfold pystem pysuffix
  cases h : pysplitIdx n.data with
  | none =>
    show n ++ "" = n
    exact String.append_empty n
  | some i =>
    show (n.data.take i).asString ++ (n.data.drop i).asString = n
    have h1 : (n.data.take i).asString ++ (n.data.drop i).asString
        = (n.data.take i ++ n.data.drop i).asString := rfl
    rw [h1, List.take_append_drop]
    rfl

theorem pystem_length_add_pysuffix_length (n : String) :
    (pystem n).length + (pysuffix n).length = n.length := by
  have := congrArg String.length (pystem_append_pysuffix n)
  rwa [String.length_append] at this

theorem one_le_repr_length (n : Nat) : 1 ≤ (Nat.repr n).length := by
  show 1 ≤ (Nat.toDigits 10 n).asString.length
  have h : (Nat.toDigits 10 n).asString.length = (Nat.toDigits 10 n).length := rfl
  rw [h]
  unfold Nat.toDigits
  simp only [Nat.toDigitsCore]
  split
  · simp
  · rw [Nat.toDigitsCore_lens_eq]
    omega

/-- One step of the collision loop (script.py lines 71–74): the next candidate
filename is `f"{stem}_{counter}{ext}"` formed from the stem and suffix of the
CURRENT candidate, with `str(counter)` embedded as `Nat.repr`. -/
def nextCand (cur : String) (counter : Nat) : String :=
  pystem cur ++ "_" ++ Nat.repr counter ++ pysuffix cur

theorem length_lt_nextCand (cur : String) (c : Nat) :
    cur.length < (nextCand cur c).length := by
  have h1 : (nextCand cur c).length
      = (pystem cur).length + 1 + (Nat.repr c).length + (pysuffix cur).length := by
    simp [nextCand, String.length_append]
    rfl
  have h2 := pystem_length_add_pysuffix_length cur
  have h3 := one_le_repr_length c
  omega

/-- Predicate used only as a termination measure for the collision loop:
`p` is a path in directory `dir` whose filename is at least as long as the
current candidate. -/
def isCandGe (dir : List String) (cur : String) (p : List String) : Bool :=
  p.length == dir.length + 1 && decide (p.take dir.length = dir) &&
    decide (cur.length ≤ (p.getLastD "").length)

/-- Number of existing paths the collision loop could still run into. -/
def resolveMeasure (fs : List (List String)) (dir : List String) (cur : String) : Nat :=
  (fs.filter (isCandGe dir cur)).length

theorem isCandGe_self (dir : List String) (cur : String) :
    isCandGe dir cur (dir ++ [cur]) = true := by
  simp [isCandGe, List.take_left, List.getLastD_concat]

theorem isCandGe_mono {dir : List String} {cur cur' : String}
    (hlen : cur.length ≤ cur'.length) (p : List String)
    (h : isCandGe dir cur' p = true) : isCandGe dir cur p = true := by
  simp only [isCandGe, Bool.and_eq_true, decide_eq_true_eq] at h ⊢
  exact ⟨h.1, le_trans hlen h.2⟩

theorem resolveMeasure_decr {fs : List (List String)} {dir : List String} {cur : String}
    (c : Nat) (h : dir ++ [cur] ∈ fs) :
    resolveMeasure fs dir (nextCand cur c) < resolveMeasure fs dir cur := by
  have hsub : (fs.filter (isCandGe dir (nextCand cur c))).Sublist
      (fs.filter (isCandGe dir cur)) :=
    List.monotone_filter_right fs
      (isCandGe_mono (le_of_lt (length_lt_nextCand cur c)))
  have hle := hsub.length_le
  rcases Nat.lt_or_ge (fs.filter (isCandGe dir (nextCand cur c))).length
      (fs.filter (isCandGe dir cur)).length with hlt | hge
  · exact hlt
  · exfalso
    have heq : fs.filter (isCandGe dir (nextCand cur c)) = fs.filter (isCandGe dir cur) :=
      hsub.eq_of_length (le_antisymm hle hge)
    have hmem : dir ++ [cur] ∈ fs.filter (isCandGe dir cur) :=
      List.mem_filter.mpr ⟨h, isCandGe_self dir cur⟩
    rw [← heq] at hmem
    have := (List.mem_filter.mp hmem).2
    simp only [isCandGe, Bool.and_eq_true, decide_eq_true_eq, List.getLastD_concat] at this
    have := this.2
    have := length_lt_nextCand cur c
    omega

/-- The collision loop of script.py lines 69–74: starting from candidate `cur`
(initially the entry's filename) and counter `counter` (initially 1), while the
path `dir/cur` exists, replace `cur` by `f"{stem}_{counter}{ext}"` and bump the
counter.  `fs` is the set of file paths existing on disk at loop entry. -/
def resolveFrom (fs : List (List String)) (dir : List String) (cur : String)
    (counter : Nat) : String :=
  if h : (dir ++ [cur]) ∈ fs then resolveFrom fs dir (nextCand cur counter) (counter + 1)
  else cur
termination_by resolveMeasure fs dir cur
decreasing_by exact resolveMeasure_decr counter h

theorem resolveFrom_not_mem (fs : List (List String)) (dir : List String) (cur : String)
    (counter : Nat) : dir ++ [resolveFrom fs dir cur counter] ∉ fs := by
  induction cur, counter using resolveFrom.induct fs dir with
  | case1 cur counter h ih =>
    rw [resolveFrom, dif_pos h]
    exact ih
  | case2 cur counter h =>
    rw [resolveFrom, dif_neg h]
    exact h

/-- The sequence of candidate filenames the collision loop walks through for an
initial filename `f`: candidate 0 is `f` itself and candidate `k+1` is derived
from candidate `k`'s stem and suffix with counter `k+1`. -/
def candSeq (f : String) : Nat → String
  | 0 => f
  | k + 1 => nextCand (candSeq f k) (k + 1)

theorem candSeq_length_strictMono (f : String) : StrictMono (fun k => (candSeq f k).length) :=
  strictMono_nat_of_lt_succ fun k => length_lt_nextCand (candSeq f k) (k + 1)

theorem candSeq_injective (f : String) (dir : List String) :
    Function.Injective (fun k => dir ++ [candSeq f k]) := by
  intro j k h
  simp only [List.append_cancel_left_eq, List.cons.injEq, and_true] at h
  exact (candSeq_length_strictMono f).injective (congrArg String.length h)

theorem exists_candSeq_not_mem (fs : List (List String)) (dir : List String) (f : String) :
    ∃ k, dir ++ [candSeq f k] ∉ fs := by
  by_contra hall
  push_neg at hall
  have hsub : Finset.image (fun k => dir ++ [candSeq f k]) (Finset.range (fs.length + 1))
      ⊆ fs.toFinset := by
    intro p hp
    rcases Finset.mem_image.mp hp with ⟨k, _, rfl⟩
    exact List.mem_toFinset.mpr (hall k)
  have hcard : (Finset.image (fun k => dir ++ [candSeq f k])
      (Finset.range (fs.length + 1))).card = fs.length + 1 := by
    rw [Finset.card_image_of_injOn ((candSeq_injective f dir).injOn)]
    simp
  have h1 := Finset.card_le_card hsub
  have h2 := List.toFinset_card_le fs
  omega

/-- Running the loop from candidate index `j` stops exactly at the first index
`k ≥ j` whose candidate path does not exist. -/
theorem resolveFrom_eq_of (fs : List (List String)) (dir : List String) (f : String) :
    ∀ d j k, k - j = d → j ≤ k →
    (∀ i, j ≤ i → i < k → dir ++ [candSeq f i] ∈ fs) →
    dir ++ [candSeq f k] ∉ fs →
    resolveFrom fs dir (candSeq f j) (j + 1) = candSeq f k := by
  intro d
  induction d with
  | zero =>
    intro j k hd hjk _ hnot
    have hjk' : j = k := by omega
    subst hjk'
    rw [resolveFrom, dif_neg hnot]
  | succ d ih =>
    intro j k hd hjk hmem hnot
    have hjlt : j < k := by omega
    have hj : dir ++ [candSeq f j] ∈ fs := hmem j le_rfl hjlt
    rw [resolveFrom, dif_pos hj]
    have hstep : nextCand (candSeq f j) (j + 1) = candSeq f (j + 1) := rfl
    rw [hstep]
    exact ih (j + 1) k (by omega) (by omega) (fun i hi hik => hmem i (by omega) hik) hnot

/-- The result of the collision loop, characterized: it is the first candidate
in `candSeq` whose path does not already exist. -/
theorem resolveFrom_eq_candSeq (fs : List (List String)) (dir : List String) (f : String) :
    ∃ k, resolveFrom fs dir f 1 = candSeq f k ∧
      (∀ i, i < k → dir ++ [candSeq f i] ∈ fs) ∧
      dir ++ [candSeq f k] ∉ fs := by
  have hex := exists_candSeq_not_mem fs dir f
  set K := Nat.find hex with hK
  refine ⟨K, ?_, ?_, Nat.find_spec hex⟩
  · have h0 : candSeq f 0 = f := rfl
    rw [← h0]
    exact resolveFrom_eq_of fs dir f K 0 K rfl (Nat.zero_le K)
      (fun i _ hik => not_not.mp (Nat.find_min hex hik)) (Nat.find_spec hex)
  · exact fun i hik => not_not.mp (Nat.find_min hex hik)

/-- The marker component `"Google Photos"` (script.py line 52). -/
def marker : String := "Google Photos"

/-- The case-insensitive extension allow-list (script.py line 56). -/
def allowedExts : List String := [".jpg", ".jpeg"]

/-- One entry of a zip archive: its internal path as ordered components
(`Path(member.filename).parts`), whether it is a directory entry
(`member.is_dir()`), and its byte content, abstracted to a `Nat`. -/
structure Entry where
  parts : List String
  dirFlag : Bool
  content : Nat
deriving DecidableEq

/-- The files on disk under the destination root: full component paths paired
with the content written there. -/
abbrev FS : Type := List (List String × Nat)

/-- The set of file paths that `Path.exists()` sees. -/
def fsPaths (fs : FS) : List (List String) := fs.map Prod.fst

/-- Eligibility test of script.py lines 52–57: the marker must occur among the
path components (exact, case-sensitive) and the lowercased suffix of the final
component must be in the allow-list. -/
def eligB (parts : List String) : Bool :=
  decide (marker ∈ parts) && decide (lowerStr (pysuffix (parts.getLastD "")) ∈ allowedExts)

/-- Index of the first occurrence of the marker (`parts.index("Google Photos")`,
script.py line 60). -/
def gpIndex (parts : List String) : Nat := List.indexOf marker parts

/-- Subfolder components `member_path.parts[gp_index + 1:-1]`
(script.py line 61). -/
def subfolders (parts : List String) : List String :=
  (parts.drop (gpIndex parts + 1)).dropLast

/-- Processing of a single archive member (script.py lines 44–78): directory
entries and ineligible paths are skipped silently; an eligible entry is written
to the collision-resolved path under `destRoot` joined with its subfolder
components, appending one file to the filesystem. -/
def processEntry (destRoot : List String) (fs : FS) (e : Entry) : FS :=
  if e.dirFlag then fs
  else if eligB e.parts then
    let dir := destRoot ++ subfolders e.parts
    let fname := resolveFrom (fsPaths fs) dir (e.parts.getLastD "") 1
    fs ++ [(dir ++ [fname], e.content)]
  else fs

/-- What opening one archive yields: `badZip` models `zipfile.BadZipFile`
raised by `ZipFile(zip_path, 'r')`; `good es err` models an archive whose
iteration produces the entries `es` and then, when `err = some msg`, raises an
unexpected exception with message `msg` (entries after the failure point are
not part of `es`). -/
inductive ArchiveData where
  | badZip : ArchiveData
  | good : List Entry → Option String → ArchiveData
deriving DecidableEq

/-- One discovered archive: its filename and what opening/iterating it yields. -/
structure Archive where
  name : String
  data : ArchiveData
deriving DecidableEq

/-- The skip reason printed for a `BadZipFile` (script.py line 84). -/
def invalidReason : String := "not a valid zip file"

/-- Accumulated run state: files written, successfully processed archive names
in processing order, and skipped archives with reasons in skip order. -/
structure BatchState where
  fs : FS
  successful : List String
  skipped : List (String × String)

/-- Processing of one archive (script.py lines 40–88): a `BadZipFile` records a
skip with the invalid-container reason and writes nothing; otherwise all
iterated entries are extracted, and the archive is recorded as successful when
iteration finished without error, or as skipped with the error message when an
unexpected exception was raised (files already written are kept). -/
def processArchive (destRoot : List String) (st : BatchState) (a : Archive) : BatchState :=
  match a.data with
  | .badZip =>
    { st with skipped := st.skipped ++ [(a.name, invalidReason)] }
  | .good es err =>
    let fs' := es.foldl (processEntry destRoot) st.fs
    match err with
    | none =>
      { fs := fs', successful := st.successful ++ [a.name], skipped := st.skipped }
    | some msg =>
      { fs := fs', successful := st.successful, skipped := st.skipped ++ [(a.name, msg)] }

/-- The main loop over all discovered archives, in order (script.py line 39). -/
def runArchives (destRoot : List String) (st : BatchState) (archives : List Archive) :
    BatchState :=
  archives.foldl (processArchive destRoot) st

/-- Does this archive end up in `successful_zips`? -/
def isSuccess (a : Archive) : Bool :=
  match a.data with
  | .good _ none => true
  | _ => false

/-- The reason recorded when this archive is skipped. -/
def skipReason (a : Archive) : String :=
  match a.data with
  | .badZip => invalidReason
  | .good _ (some msg) => msg
  | .good _ none => ""

/-- Number of entries of an archive that the filter accepts for extraction. -/
def eligCount (a : Archive) : Nat :=
  match a.data with
  | .badZip => 0
  | .good es _ => (es.filter (fun e => !e.dirFlag && eligB e.parts)).length

/-- The name filter of `source_dir.glob("*.zip")`: top-level names ending in
`.zip` (the glob pattern is case-sensitive). -/
def zipName (s : String) : Bool := List.isSuffixOf ".zip".data s.data

/-- The archive enumerator of script.py line 39:
`sorted(source_dir.glob("*.zip"), key=lambda p: p.name.lower())`, applied to
the names the filesystem enumerates (in its native order).  Python's `sorted`
is a stable sort, embedded as `List.mergeSort`. -/
def enumerateZips (listing : List String) : List String :=
  (listing.filter zipName).mergeSort nameLe

/-- The source directory as the process sees it: `none` when the directory is
missing or unreadable.  `pathlib.Path.glob` yields an empty iterator in that
case (its selector returns `iter([])` when the parent is not a readable
directory), so no exception escapes script.py line 39. -/
structure SourceDir where
  listing? : Option (List String)

/-- Names produced by `source_dir.glob("*.zip")` in sorted order. -/
def globZips (src : SourceDir) : List String :=
  match src.listing? with
  | none => []
  | some l => enumerateZips l

/-- The whole environment a run reads: the source directory, the data behind
each archive name, and the files already present under the destination. -/
structure World where
  source : SourceDir
  lookup : String → ArchiveData
  destFiles : FS

/-- Outcome of a process run: the exit code, and the final batch state when the
batch ran (`none` when the process stopped at the usage error). -/
structure RunResult where
  exitCode : Nat
  state : Option BatchState

/-- The whole script (function `main` of script.py): `sys.argv` has the script
name first, so `len(sys.argv) != 3` exits with status 1 before touching the
filesystem; otherwise every discovered archive is processed in order and the
process exits 0 after the summary. -/
def script (argv : List String) (w : World) : RunResult :=
  if argv.length ≠ 3 then ⟨1, none⟩
  else
    ⟨0, some (runArchives [] ⟨w.destFiles, [], []⟩
      ((globZips w.source).map (fun n => ⟨n, w.lookup n⟩)))⟩

/-- The successfully-processed list as the summary prints it
(`sorted(successful_zips, key=str.lower)`, script.py line 94). -/
def summarySorted (st : BatchState) : List String :=
  st.successful.mergeSort nameLe

/-- The skipped list as the summary prints it (script.py lines 100–102):
the recorded names, in recorded order. -/
def summarySkipped (st : BatchState) : List String :=
  st.skipped.map Prod.fst

/-! Helper lemmas about the batch. -/

theorem fsPaths_append (fs t : FS) : fsPaths (fs ++ t) = fsPaths fs ++ fsPaths t :=
  List.map_append _ fs t

theorem processEntry_fs_append (destRoot : List String) (fs : FS) (e : Entry) :
    ∃ t, processEntry destRoot fs e = fs ++ t := by
  unfold processEntry
  split
  · exact ⟨[], by simp⟩
  · split
    · exact ⟨_, rfl⟩
    · exact ⟨[], by simp⟩

theorem foldl_processEntry_append (destRoot : List String) :
    ∀ (es : List Entry) (fs : FS), ∃ t, es.foldl (processEntry destRoot) fs = fs ++ t
  | [], fs => ⟨[], by simp⟩
  | e :: es, fs => by
    rw [List.foldl_cons]
    rcases processEntry_fs_append destRoot fs e with ⟨t₁, h₁⟩
    rcases foldl_processEntry_append destRoot es (processEntry destRoot fs e) with ⟨t₂, h₂⟩
    exact ⟨t₁ ++ t₂, by rw [h₂, h₁, List.append_assoc]⟩

theorem processArchive_fs_append (destRoot : List String) (st : BatchState) (a : Archive) :
    ∃ t, (processArchive destRoot st a).fs = st.fs ++ t := by
  unfold processArchive
  match a.data with
  | .badZip => exact ⟨[], by simp⟩
  | .good es none => exact foldl_processEntry_append destRoot es st.fs
  | .good es (some msg) => exact foldl_processEntry_append destRoot es st.fs

theorem runArchives_fs_append (destRoot : List String) :
    ∀ (as : List Archive) (st : BatchState),
    ∃ t, (runArchives destRoot st as).fs = st.fs ++ t
  | [], st => ⟨[], by simp [runArchives]⟩
  | a :: as, st => by
    show ∃ t, (runArchives destRoot (processArchive destRoot st a) as).fs = st.fs ++ t
    rcases processArchive_fs_append destRoot st a with ⟨t₁, h₁⟩
    rcases runArchives_fs_append destRoot as (processArchive destRoot st a) with ⟨t₂, h₂⟩
    exact ⟨t₁ ++ t₂, by rw [h₂, h₁, List.append_assoc]⟩

theorem processEntry_nodup (destRoot : List String) (fs : FS) (e : Entry)
    (h : (fsPaths fs).Nodup) : (fsPaths (processEntry destRoot fs e)).Nodup := by
  unfold processEntry
  split
  · exact h
  · split
    · rw [fsPaths_append]
      show ((fsPaths fs) ++ [_]).Nodup
      rw [List.nodup_append]
      refine ⟨h, List.nodup_singleton _, ?_⟩
      intro p hp hq
      rcases List.mem_singleton.mp hq with rfl
      exact resolveFrom_not_mem (fsPaths fs) _ _ 1 hp
    · exact h

theorem foldl_processEntry_nodup (destRoot : List String) :
    ∀ (es : List Entry) (fs : FS), (fsPaths fs).Nodup →
    (fsPaths (es.foldl (processEntry destRoot) fs)).Nodup
  | [], fs, h => h
  | e :: es, fs, h =>
    foldl_processEntry_nodup destRoot es _ (processEntry_nodup destRoot fs e h)

theorem processArchive_nodup (destRoot : List String) (st : BatchState) (a : Archive)
    (h : (fsPaths st.fs).Nodup) : (fsPaths (processArchive destRoot st a).fs).Nodup := by
  unfold processArchive
  match a.data with
  | .badZip => exact h
  | .good es none => exact foldl_processEntry_nodup destRoot es st.fs h
  | .good es (some msg) => exact foldl_processEntry_nodup destRoot es st.fs h

theorem runArchives_nodup (destRoot : List String) :
    ∀ (as : List Archive) (st : BatchState), (fsPaths st.fs).Nodup →
    (fsPaths (runArchives destRoot st as).fs).Nodup
  | [], _, h => h
  | a :: as, st, h =>
    runArchives_nodup destRoot as _ (processArchive_nodup destRoot st a h)

theorem processEntry_fs_length (destRoot : List String) (fs : FS) (e : Entry) :
    (processEntry destRoot fs e).length
      = fs.length + (if (!e.dirFlag && eligB e.parts) = true then 1 else 0) := by
  unfold processEntry
  split
  · simp [*]
  · split
    · simp_all
    · simp_all

theorem foldl_processEntry_length (destRoot : List String) :
    ∀ (es : List Entry) (fs : FS),
    (es.foldl (processEntry destRoot) fs).length
      = fs.length + (es.filter (fun e => !e.dirFlag && eligB e.parts)).length
  | [], fs => by simp
  | e :: es, fs => by
    rw [List.foldl_cons, foldl_processEntry_length destRoot es, processEntry_fs_length]
    cases h : (!e.dirFlag && eligB e.parts) <;> simp [List.filter_cons, h] <;> omega

theorem runArchives_fs_length (destRoot : List String) :
    ∀ (as : List Archive) (st : BatchState),
    (runArchives destRoot st as).fs.length = st.fs.length + (as.map eligCount).sum
  | [], st => by simp [runArchives]
  | a :: as, st => by
    show (runArchives destRoot (processArchive destRoot st a) as).fs.length = _
    rw [runArchives_fs_length destRoot as]
    have hpa : (processArchive destRoot st a).fs.length = st.fs.length + eligCount a := by
      unfold processArchive eligCount
      match a.data with
      | .badZip => simp
      | .good es none => exact foldl_processEntry_length destRoot es st.fs
      | .good es (some msg) => exact foldl_processEntry_length destRoot es st.fs
    rw [hpa]
    simp
    omega

theorem mem_foldl_processEntry (destRoot : List String) :
    ∀ (es : List Entry) (fs : FS) (e : Entry), e ∈ es → e.dirFlag = false →
    eligB e.parts = true →
    ∃ p, (p, e.content) ∈ es.foldl (processEntry destRoot) fs
  | [], _, e, he, _, _ => absurd he (List.not_mem_nil e)
  | e' :: es, fs, e, he, hnd, helig => by
    rw [List.foldl_cons]
    rcases List.mem_cons.mp he with rfl | htail
    · have hstep : processEntry destRoot fs e
          = fs ++ [((destRoot ++ subfolders e.parts)
              ++ [resolveFrom (fsPaths fs) (destRoot ++ subfolders e.parts)
                    (e.parts.getLastD "") 1], e.content)] := by
        unfold processEntry
        rw [if_neg (by simp [hnd]), if_pos helig]
      rcases foldl_processEntry_append destRoot es (processEntry destRoot fs e) with ⟨t, ht⟩
      refine ⟨(destRoot ++ subfolders e.parts)
          ++ [resolveFrom (fsPaths fs) (destRoot ++ subfolders e.parts)
                (e.parts.getLastD "") 1], ?_⟩
      rw [ht, hstep]
      exact List.mem_append_left _ (List.mem_append_right _ (List.mem_singleton.mpr rfl))
    · exact mem_foldl_processEntry destRoot es _ e htail hnd helig

theorem mem_runArchives_fs (destRoot : List String) :
    ∀ (as : List Archive) (st : BatchState) (a : Archive) (es : List Entry)
      (err : Option String) (e : Entry),
    a ∈ as → a.data = .good es err → e ∈ es → e.dirFlag = false → eligB e.parts = true →
    ∃ p, (p, e.content) ∈ (runArchives destRoot st as).fs
  | [], _, a, _, _, _, ha, _, _, _, _ => absurd ha (List.not_mem_nil a)
  | a' :: as, st, a, es, err, e, ha, hdata, he, hnd, helig => by
    show ∃ p, (p, e.content) ∈ (runArchives destRoot (processArchive destRoot st a') as).fs
    rcases List.mem_cons.mp ha with rfl | htail
    · have hfs : ∃ q, (q, e.content) ∈ (processArchive destRoot st a).fs := by
        unfold processArchive
        rw [hdata]
        match err with
        | none => exact mem_foldl_processEntry destRoot es st.fs e he hnd helig
        | some msg => exact mem_foldl_processEntry destRoot es st.fs e he hnd helig
      rcases hfs with ⟨q, hq⟩
      rcases runArchives_fs_append destRoot as (processArchive destRoot st a) with ⟨t, ht⟩
      exact ⟨q, by rw [ht]; exact List.mem_append_left _ hq⟩
    · exact mem_runArchives_fs destRoot as _ a es err e htail hdata he hnd helig

theorem runArchives_successful (destRoot : List String) :
    ∀ (as : List Archive) (st : BatchState),
    (runArchives destRoot st as).successful
      = st.successful ++ (as.filter isSuccess).map Archive.name
  | [], st => by simp [runArchives]
  | a :: as, st => by
    show (runArchives destRoot (processArchive destRoot st a) as).successful = _
    rw [runArchives_successful destRoot as]
    match h : a.data with
    | .badZip =>
      have : isSuccess a = false := by unfold isSuccess; rw [h]
      simp [processArchive, h, List.filter_cons, this]
    | .good es none =>
      have : isSuccess a = true := by unfold isSuccess; rw [h]
      simp [processArchive, h, List.filter_cons, this]
    | .good es (some msg) =>
      have : isSuccess a = false := by unfold isSuccess; rw [h]
      simp [processArchive, h, List.filter_cons, this]

theorem runArchives_skipped (destRoot : List String) :
    ∀ (as : List Archive) (st : BatchState),
    (runArchives destRoot st as).skipped
      = st.skipped ++ (as.filter (fun a => !isSuccess a)).map (fun a => (a.name, skipReason a))
  | [], st => by simp [runArchives]
  | a :: as, st => by
    show (runArchives destRoot (processArchive destRoot st a) as).skipped = _
    rw [runArchives_skipped destRoot as]
    match h : a.data with
    | .badZip =>
      have h1 : isSuccess a = false := by unfold isSuccess; rw [h]
      have h2 : skipReason a = invalidReason := by unfold skipReason; rw [h]
      simp [processArchive, h, List.filter_cons, h1, h2]
    | .good es none =>
      have h1 : isSuccess a = true := by unfold isSuccess; rw [h]
      simp [processArchive, h, List.filter_cons, h1]
    | .good es (some msg) =>
      have h1 : isSuccess a = false := by unfold isSuccess; rw [h]
      have h2 : skipReason a = msg := by unfold skipReason; rw [h]
      simp [processArchive, h, List.filter_cons, h1, h2]

theorem filter_length_partition {α : Type} (p : α → Bool) :
    ∀ l : List α, (l.filter p).length + (l.filter (fun a => !p a)).length = l.length
  | [] => rfl
  | a :: l => by
    have ih := filter_length_partition p l
    cases h : p a
    · simp only [List.filter_cons, h, Bool.not_false, if_true, if_false, List.length_cons,
        Bool.false_eq_true, ite_false, ite_true]
      omega
    · simp only [List.filter_cons, h, Bool.not_true, if_true, if_false, List.length_cons,
        Bool.false_eq_true, ite_false, ite_true]
      omega

theorem char_eq_of_toNat_eq {a b : Char} (h : a.toNat = b.toNat) : a = b := by
  apply Char.eq_of_val_eq
  apply UInt32.toNat.inj
  exact h

theorem lexLe_antisymm : ∀ a b : List Char, lexLe a b = true → lexLe b a = true → a = b
  | [], [], _, _ => rfl
  | [], _ :: _, _, h => by simp [lexLe] at h
  | _ :: _, [], h, _ => by simp [lexLe] at h
  | a :: as, b :: bs, h₁, h₂ => by
    simp only [lexLe] at h₁ h₂
    by_cases hab : a.toNat < b.toNat
    · rw [if_neg (by omega), if_pos hab] at h₂
      simp at h₂
    · by_cases hba : b.toNat < a.toNat
      · rw [if_neg (by omega), if_pos hba] at h₁
        simp at h₁
      · rw [if_neg hab, if_neg hba] at h₁
        rw [if_neg hba, if_neg hab] at h₂
        rw [char_eq_of_toNat_eq (by omega : a.toNat = b.toNat),
          lexLe_antisymm as bs h₁ h₂]

theorem eq_of_perm_of_map_eq {α β : Type} (f : α → β) :
    ∀ {l₁ l₂ : List α}, l₁.Perm l₂ → l₁.map f = l₂.map f → (l₁.map f).Nodup → l₁ = l₂
  | [], l₂, hp, _, _ => (List.Perm.nil_eq hp).symm ▸ rfl
  | a :: t₁, [], hp, _, _ => absurd hp.symm (by simp)
  | a :: t₁, b :: t₂, hp, hmap, hnd => by
    simp only [List.map_cons, List.cons.injEq] at hmap
    rw [List.map_cons, List.nodup_cons] at hnd
    by_cases hab : a = b
    · subst hab
      rw [eq_of_perm_of_map_eq f hp.cons_inv hmap.2 hnd.2]
    · exfalso
      have ha2 : a ∈ b :: t₂ := hp.mem_iff.mp (List.mem_cons_self a t₁)
      have hat2 : a ∈ t₂ := by
        rcases List.mem_cons.mp ha2 with h | h
        · exact absurd h hab
        · exact h
      have h1 : f a ∈ t₂.map f := List.mem_map_of_mem f hat2
      rw [← hmap.2] at h1
      exact hnd.1 h1

theorem drop_dropLast_comm {α : Type} (l : List α) (n : Nat) :
    (l.drop n).dropLast = l.dropLast.drop n := by
  rw [List.dropLast_eq_take, List.dropLast_eq_take, List.drop_take, List.length_drop]
  congr 1
  omega

theorem processEntry_eligible_eq (destRoot : List String) (fs : FS) (e : Entry)
    (hnd : e.dirFlag = false) (helig : eligB e.parts = true) :
    processEntry destRoot fs e
      = fs ++ [((destRoot ++ subfolders e.parts)
          ++ [resolveFrom (fsPaths fs) (destRoot ++ subfolders e.parts)
                (e.parts.getLastD "") 1], e.content)] := by
  simp [processEntry, hnd, helig]

/-! Claim theorems. -/

/-- C10: for every finite set of pre-existing files, the collision-resolution
loop terminates: each iteration's next candidate has a strictly longer filename
than the current one, so the candidate sequence escapes the finite existing set
after finitely many steps, and the loop's result is such an escaping
candidate. -/
theorem collision_loop_termination (fs : List (List String)) (dir : List String)
    (f : String) :
    (∀ (cur : String) (c : Nat), cur.length < (nextCand cur c).length) ∧
    (∃ k, dir ++ [candSeq f k] ∉ fs) ∧
    (∃ k, resolveFrom fs dir f 1 = candSeq f k ∧ dir ++ [candSeq f k] ∉ fs) := by
  refine ⟨length_lt_nextCand, exists_candSeq_not_mem fs dir f, ?_⟩
  rcases resolveFrom_eq_candSeq fs dir f with ⟨k, h1, _, h3⟩
  exact ⟨k, h1, h3⟩

/-- C3, counterexample: with `photo.jpg` and `photo_1.jpg` already existing,
the loop's second alternate candidate for `photo.jpg` is `photo_1_2.jpg`
(derived from the stem of the current candidate `photo_1.jpg`), not the
`photo_2.jpg` the claim predicts. -/
theorem resolve_second_alternate_cex :
    resolveFrom [["photo.jpg"], ["photo_1.jpg"]] [] "photo.jpg" 1 = "photo_1_2.jpg" ∧
    ("photo_1_2.jpg" : String) ≠ "photo_2.jpg" := by
  constructor
  · have h := resolveFrom_eq_of [["photo.jpg"], ["photo_1.jpg"]] [] "photo.jpg" 2 0 2 rfl
      (by omega) (by intro i h0 h2; interval_cases i <;> decide) (by decide)
    exact h.trans (by decide)
  · decide

/-- C3, amended: the k-th alternate candidate is derived from the (k-1)-th
candidate (not from the original filename) by inserting the counter value
before that candidate's extension; candidates are re-checked in order and the
resolver returns the first whose path does not exist.  In particular the first
alternate for `photo.jpg` is `photo_1.jpg` and the second is
`photo_1_2.jpg`. -/
theorem resolve_alternate_characterization (fs : List (List String)) (dir : List String)
    (f : String) :
    (∀ k, candSeq f (k + 1)
        = pystem (candSeq f k) ++ "_" ++ Nat.repr (k + 1) ++ pysuffix (candSeq f k)) ∧
    (∃ k, resolveFrom fs dir f 1 = candSeq f k ∧
      (∀ i, i < k → dir ++ [candSeq f i] ∈ fs) ∧ dir ++ [candSeq f k] ∉ fs) ∧
    candSeq "photo.jpg" 1 = "photo_1.jpg" ∧ candSeq "photo.jpg" 2 = "photo_1_2.jpg" :=
  ⟨fun _ => rfl, resolveFrom_eq_candSeq fs dir f, by decide, by decide⟩

/-- C1: the filesystem only ever grows (nothing existing is overwritten or
lost), written paths stay pairwise distinct, and two eligible entries written
in sequence — in particular two resolving to the same directory and filename —
land at two distinct fresh paths, each keeping its own content. -/
theorem no_overwrite_invariant (destRoot : List String) (st : BatchState)
    (as : List Archive) (h : (fsPaths st.fs).Nodup) :
    (∃ t, (runArchives destRoot st as).fs = st.fs ++ t) ∧
    (fsPaths (runArchives destRoot st as).fs).Nodup ∧
    (∀ pc, pc ∈ st.fs → pc ∈ (runArchives destRoot st as).fs) ∧
    (∀ (fs' : FS) (e₁ e₂ : Entry), e₁.dirFlag = false → eligB e₁.parts = true →
      e₂.dirFlag = false → eligB e₂.parts = true →
      ∃ p₁ p₂, processEntry destRoot (processEntry destRoot fs' e₁) e₂
          = fs' ++ [(p₁, e₁.content), (p₂, e₂.content)] ∧ p₁ ≠ p₂ ∧
          p₁ ∉ fsPaths fs' ∧ p₂ ∉ fsPaths fs') := by
  refine ⟨runArchives_fs_append destRoot as st, runArchives_nodup destRoot as st h, ?_, ?_⟩
  · intro pc hpc
    rcases runArchives_fs_append destRoot as st with ⟨t, ht⟩
    rw [ht]
    exact List.mem_append_left t hpc
  · intro fs' e₁ e₂ h1d h1e h2d h2e
    have hs1 := processEntry_eligible_eq destRoot fs' e₁ h1d h1e
    refine ⟨(destRoot ++ subfolders e₁.parts)
        ++ [resolveFrom (fsPaths fs') (destRoot ++ subfolders e₁.parts)
              (e₁.parts.getLastD "") 1],
      (destRoot ++ subfolders e₂.parts)
        ++ [resolveFrom (fsPaths (processEntry destRoot fs' e₁))
              (destRoot ++ subfolders e₂.parts) (e₂.parts.getLastD "") 1],
      ?_, ?_, ?_, ?_⟩
    · rw [processEntry_eligible_eq destRoot (processEntry destRoot fs' e₁) e₂ h2d h2e, hs1,
        List.append_assoc]
      rfl
    · intro heq
      have hmem : (destRoot ++ subfolders e₁.parts)
          ++ [resolveFrom (fsPaths fs') (destRoot ++ subfolders e₁.parts)
                (e₁.parts.getLastD "") 1] ∈ fsPaths (processEntry destRoot fs' e₁) := by
        rw [hs1, fsPaths_append]
        exact List.mem_append_right _ (List.mem_singleton.mpr rfl)
      rw [heq] at hmem
      exact resolveFrom_not_mem (fsPaths (processEntry destRoot fs' e₁))
        (destRoot ++ subfolders e₂.parts) (e₂.parts.getLastD "") 1 hmem
    · exact resolveFrom_not_mem (fsPaths fs') (destRoot ++ subfolders e₁.parts)
        (e₁.parts.getLastD "") 1
    · intro hmem
      apply resolveFrom_not_mem (fsPaths (processEntry destRoot fs' e₁))
        (destRoot ++ subfolders e₂.parts) (e₂.parts.getLastD "") 1
      rw [hs1, fsPaths_append] at hmem
      rw [hs1, fsPaths_append]
      exact List.mem_append_left _ hmem

/-- C1 witness: a concrete two-archive run whose two same-named eligible
entries both land on disk, with all written paths distinct. -/
theorem no_overwrite_invariant_witness :
    (fsPaths (runArchives [] ⟨[], [], []⟩
      [⟨"A.zip", ArchiveData.good [⟨["Google Photos", "Trip", "photo.jpg"], false, 1⟩] none⟩,
       ⟨"B.zip", ArchiveData.good [⟨["Google Photos", "Trip", "photo.jpg"], false, 2⟩] none⟩]).fs).Nodup :=
  (no_overwrite_invariant [] ⟨[], [], []⟩
    [⟨"A.zip", ArchiveData.good [⟨["Google Photos", "Trip", "photo.jpg"], false, 1⟩] none⟩,
     ⟨"B.zip", ArchiveData.good [⟨["Google Photos", "Trip", "photo.jpg"], false, 2⟩] none⟩]
    (by decide)).2.1

/-- C4: a non-directory entry is extracted iff the marker occurs among its path
components (case-sensitively) and the lowercased extension of its final
component is in the allow-list; the subfolder components used for the
destination are exactly those strictly between the (first) marker component
and the filename; ineligible entries leave the filesystem untouched. -/
theorem eligibility_characterization (e : Entry) (hnd : e.dirFlag = false)
    (destRoot : List String) (fs : FS) :
    (processEntry destRoot fs e ≠ fs ↔
      marker ∈ e.parts ∧ lowerStr (pysuffix (e.parts.getLastD "")) ∈ allowedExts) ∧
    (subfolders e.parts = (e.parts.dropLast).drop (gpIndex e.parts + 1)) ∧
    (eligB e.parts = true →
      ∃ fname, processEntry destRoot fs e
        = fs ++ [(destRoot ++ (e.parts.dropLast).drop (gpIndex e.parts + 1) ++ [fname],
            e.content)]) ∧
    (eligB e.parts = false → processEntry destRoot fs e = fs) := by
  have hsub : subfolders e.parts = (e.parts.dropLast).drop (gpIndex e.parts + 1) :=
    drop_dropLast_comm e.parts (gpIndex e.parts + 1)
  have hoff : eligB e.parts = false → processEntry destRoot fs e = fs := by
    intro hfalse
    unfold processEntry
    rw [if_neg (by simp [hnd]), if_neg (by simp [hfalse])]
  have hon : eligB e.parts = true →
      ∃ fname, processEntry destRoot fs e
        = fs ++ [(destRoot ++ (e.parts.dropLast).drop (gpIndex e.parts + 1) ++ [fname],
            e.content)] := by
    intro htrue
    refine ⟨resolveFrom (fsPaths fs) (destRoot ++ subfolders e.parts)
      (e.parts.getLastD "") 1, ?_⟩
    rw [processEntry_eligible_eq destRoot fs e hnd htrue, ← hsub]
  have hchar : eligB e.parts = true ↔
      marker ∈ e.parts ∧ lowerStr (pysuffix (e.parts.getLastD "")) ∈ allowedExts := by
    simp [eligB]
  refine ⟨?_, hsub, hon, hoff⟩
  constructor
  · intro hne
    by_contra hnot
    exact hne (hoff (by rw [← Bool.not_eq_true]; exact fun ht => hnot (hchar.mp ht)))
  · intro hcond heq
    obtain ⟨fname, hf⟩ := hon (hchar.mpr hcond)
    rw [heq] at hf
    have hlen := congrArg List.length hf
    simp at hlen

/-- C4 witness: a concrete eligible entry is written into its subfolder, and a
concrete marker-less entry is silently excluded. -/
theorem eligibility_characterization_witness :
    (∃ fname, processEntry [] []
        (⟨["Takeout", "Google Photos", "Trip", "photo.jpg"], false, 5⟩ : Entry)
      = [] ++ [(([] : List String)
          ++ ((["Takeout", "Google Photos", "Trip", "photo.jpg"] : List String).dropLast).drop
              (gpIndex ["Takeout", "Google Photos", "Trip", "photo.jpg"] + 1) ++ [fname], 5)]) ∧
    processEntry [] [] (⟨["Other Folder", "photo.jpg"], false, 7⟩ : Entry) = [] :=
  ⟨(eligibility_characterization ⟨["Takeout", "Google Photos", "Trip", "photo.jpg"], false, 5⟩
      rfl [] []).2.2.1 (by decide),
   (eligibility_characterization ⟨["Other Folder", "photo.jpg"], false, 7⟩
      rfl [] []).2.2.2 (by decide)⟩

/-- C5, counterexample: with the source directory missing (or unreadable), the
glob yields no matches and the run completes normally — exit code 0, an empty
summary, nothing skipped — instead of failing with a fatal error. -/
theorem missing_source_normal_completion_cex :
    script ["python", "src", "dst"] ⟨⟨none⟩, fun _ => ArchiveData.badZip, []⟩
      = ⟨0, some ⟨[], [], []⟩⟩ := rfl

/-- C5, amended: when the source directory does not exist or is not readable,
`glob` produces an empty iterator, so the batch completes normally with zero
archives processed, an untouched destination, empty outcome lists, and exit
code 0 — it is not a fatal error. -/
theorem missing_source_completes (argv : List String) (w : World)
    (hargs : argv.length = 3) (hsrc : w.source.listing? = none) :
    script argv w = ⟨0, some ⟨w.destFiles, [], []⟩⟩ := by
  unfold script
  rw [if_neg (by omega)]
  unfold globZips
  rw [hsrc]
  rfl

/-- C5 witness: a concrete three-argument invocation over a missing source
directory, with one pre-existing destination file, finishes with exit 0 and an
empty summary. -/
theorem missing_source_completes_witness :
    script ["python", "a", "b"] ⟨⟨none⟩, fun _ => ArchiveData.badZip, [(["x"], 0)]⟩
      = ⟨0, some ⟨[(["x"], 0)], [], []⟩⟩ :=
  missing_source_completes ["python", "a", "b"]
    ⟨⟨none⟩, fun _ => ArchiveData.badZip, [(["x"], 0)]⟩ rfl rfl

/-- C9: the process exits 1 before any processing exactly when the argument
count is wrong, and on exactly two positional arguments it runs the whole batch
and exits 0 whatever the archives contain. -/
theorem exit_status (argv : List String) (w : World) :
    (argv.length ≠ 3 → script argv w = ⟨1, none⟩) ∧
    (argv.length = 3 → (script argv w).exitCode = 0 ∧
      (script argv w).state = some (runArchives [] ⟨w.destFiles, [], []⟩
        ((globZips w.source).map (fun n => ⟨n, w.lookup n⟩)))) := by
  constructor
  · intro h
    unfold script
    rw [if_pos h]
  · intro h
    unfold script
    rw [if_neg (by omega)]
    exact ⟨rfl, rfl⟩

/-- C9 witness: one argument yields exit 1 with no batch state; two positional
arguments over a source containing one corrupt archive still exit 0. -/
theorem exit_status_witness :
    script ["python"] ⟨⟨none⟩, fun _ => ArchiveData.badZip, []⟩ = ⟨1, none⟩ ∧
    (script ["python", "s", "d"]
      ⟨⟨some ["bad.zip"]⟩, fun _ => ArchiveData.badZip, []⟩).exitCode = 0 :=
  ⟨(exit_status ["python"] ⟨⟨none⟩, fun _ => ArchiveData.badZip, []⟩).1 (by decide),
   ((exit_status ["python", "s", "d"]
      ⟨⟨some ["bad.zip"]⟩, fun _ => ArchiveData.badZip, []⟩).2 rfl).1⟩

/-- C7: the printed success list is sorted by lowercased name whatever order
the names were accumulated in and is a permutation of them, while the printed
skip list is exactly the recorded skip sequence — which for a run is the
skipped archives in processing (chronological) order. -/
theorem summary_ordering (st : BatchState) :
    List.Pairwise (fun a b => nameLe a b = true) (summarySorted st) ∧
    (summarySorted st).Perm st.successful ∧
    summarySkipped st = st.skipped.map Prod.fst ∧
    (∀ (destRoot : List String) (fs0 : FS) (as : List Archive),
      summarySkipped (runArchives destRoot ⟨fs0, [], []⟩ as)
        = (as.filter (fun a => !isSuccess a)).map Archive.name) := by
  refine ⟨List.sorted_mergeSort nameLe_trans nameLe_total st.successful,
    List.mergeSort_perm st.successful nameLe, rfl, ?_⟩
  intro destRoot fs0 as
  unfold summarySkipped
  rw [runArchives_skipped]
  simp

/-- C6: each archive contributes exactly one outcome record — success exactly
when its iteration finished error-free (so an archive with only ineligible
entries is still successful) — and with distinct archive names no name is both
successful and skipped. -/
theorem outcome_partition (destRoot : List String) (fs0 : FS) (as : List Archive)
    (hnames : (as.map Archive.name).Nodup) :
    (runArchives destRoot ⟨fs0, [], []⟩ as).successful
      = (as.filter isSuccess).map Archive.name ∧
    (runArchives destRoot ⟨fs0, [], []⟩ as).skipped
      = (as.filter (fun a => !isSuccess a)).map (fun a => (a.name, skipReason a)) ∧
    (runArchives destRoot ⟨fs0, [], []⟩ as).successful.length
      + (runArchives destRoot ⟨fs0, [], []⟩ as).skipped.length = as.length ∧
    (∀ (nm : String) (es : List Entry), isSuccess ⟨nm, ArchiveData.good es none⟩ = true) ∧
    (∀ n, n ∈ (runArchives destRoot ⟨fs0, [], []⟩ as).successful →
      n ∉ (runArchives destRoot ⟨fs0, [], []⟩ as).skipped.map Prod.fst) := by
  have h1 : (runArchives destRoot ⟨fs0, [], []⟩ as).successful
      = (as.filter isSuccess).map Archive.name := by
    rw [runArchives_successful]
    rfl
  have h2 : (runArchives destRoot ⟨fs0, [], []⟩ as).skipped
      = (as.filter (fun a => !isSuccess a)).map (fun a => (a.name, skipReason a)) := by
    rw [runArchives_skipped]
    rfl
  refine ⟨h1, h2, ?_, fun nm es => rfl, ?_⟩
  · rw [h1, h2, List.length_map, List.length_map]
    exact filter_length_partition isSuccess as
  · intro n hn hsk
    rw [h1] at hn
    rw [h2, List.map_map] at hsk
    rcases List.mem_map.mp hn with ⟨a, ha, rfl⟩
    rcases List.mem_map.mp hsk with ⟨b, hb, hbn⟩
    have ha' := List.mem_filter.mp ha
    have hb' := List.mem_filter.mp hb
    have hab : b = a :=
      List.inj_on_of_nodup_map hnames hb'.1 ha'.1 hbn
    rw [hab] at hb'
    rw [ha'.2] at hb'
    simp at hb'

/-- C6 witness: one good archive (with no eligible entries) and one corrupt
archive produce exactly one outcome each, on the correct sides. -/
theorem outcome_partition_witness :
    (runArchives [] ⟨[], [], []⟩
        [⟨"good.zip", ArchiveData.good [⟨["Other Folder", "photo.jpg"], false, 3⟩] none⟩,
         ⟨"bad.zip", ArchiveData.badZip⟩]).successful = ["good.zip"] ∧
    (runArchives [] ⟨[], [], []⟩
        [⟨"good.zip", ArchiveData.good [⟨["Other Folder", "photo.jpg"], false, 3⟩] none⟩,
         ⟨"bad.zip", ArchiveData.badZip⟩]).skipped = [("bad.zip", invalidReason)] := by
  have h := outcome_partition [] []
    [⟨"good.zip", ArchiveData.good [⟨["Other Folder", "photo.jpg"], false, 3⟩] none⟩,
     ⟨"bad.zip", ArchiveData.badZip⟩] (by decide)
  exact ⟨h.1.trans (by decide), h.2.1.trans (by decide)⟩

/-- C2: failures are recovered at archive granularity: an unparsable container
records a skip with the invalid-container reason; any other failure during
iteration records a skip with the error message while keeping every file
already written (no rollback); processing always continues with the next
archive; and with one corrupt archive among otherwise clean ones, exactly the
corrupt one is skipped while every eligible entry of the others is
extracted. -/
theorem archive_failure_isolation (destRoot : List String) (st : BatchState) :
    (∀ a : Archive, a.data = ArchiveData.badZip →
      processArchive destRoot st a
        = { st with skipped := st.skipped ++ [(a.name, invalidReason)] }) ∧
    (∀ (a : Archive) (es : List Entry) (msg : String),
      a.data = ArchiveData.good es (some msg) →
      processArchive destRoot st a
        = { fs := es.foldl (processEntry destRoot) st.fs, successful := st.successful,
            skipped := st.skipped ++ [(a.name, msg)] } ∧
      ∃ t, es.foldl (processEntry destRoot) st.fs = st.fs ++ t) ∧
    (∀ (a : Archive) (rest : List Archive),
      runArchives destRoot st (a :: rest)
        = runArchives destRoot (processArchive destRoot st a) rest) ∧
    (∀ (pre : List Archive) (c : Archive) (post : List Archive),
      c.data = ArchiveData.badZip →
      (∀ a, a ∈ pre ++ post → isSuccess a = true) →
      (runArchives destRoot st (pre ++ c :: post)).skipped
          = st.skipped ++ [(c.name, invalidReason)] ∧
      (runArchives destRoot st (pre ++ c :: post)).successful
          = st.successful ++ pre.map Archive.name ++ post.map Archive.name ∧
      (∀ (a : Archive) (es : List Entry) (err : Option String) (e : Entry),
        a ∈ pre ++ post → a.data = ArchiveData.good es err → e ∈ es →
        e.dirFlag = false → eligB e.parts = true →
        ∃ p, (p, e.content) ∈ (runArchives destRoot st (pre ++ c :: post)).fs)) := by
  refine ⟨?_, ?_, fun a rest => rfl, ?_⟩
  · intro a h
    unfold processArchive
    rw [h]
  · intro a es msg h
    constructor
    · unfold processArchive
      rw [h]
    · exact foldl_processEntry_append destRoot es st.fs
  · intro pre c post hc hall
    have hcs : isSuccess c = false := by
      unfold isSuccess
      rw [hc]
    have hcr : skipReason c = invalidReason := by
      unfold skipReason
      rw [hc]
    have hfpre : pre.filter isSuccess = pre :=
      List.filter_eq_self.mpr (fun a ha => hall a (List.mem_append_left post ha))
    have hfpost : post.filter isSuccess = post :=
      List.filter_eq_self.mpr (fun a ha => hall a (List.mem_append_right pre ha))
    have hnpre : pre.filter (fun a => !isSuccess a) = [] :=
      List.filter_eq_nil_iff.mpr
        (fun a ha => by simp [hall a (List.mem_append_left post ha)])
    have hnpost : post.filter (fun a => !isSuccess a) = [] :=
      List.filter_eq_nil_iff.mpr
        (fun a ha => by simp [hall a (List.mem_append_right pre ha)])
    refine ⟨?_, ?_, ?_⟩
    · rw [runArchives_skipped, List.filter_append, List.filter_cons, hnpre, hnpost]
      simp [hcs, hcr]
    · rw [runArchives_successful, List.filter_append, List.filter_cons, hfpre, hfpost]
      simp [hcs, List.append_assoc]
    · intro a es err e ha hdata he hnd helig
      have ha' : a ∈ pre ++ c :: post := by
        rcases List.mem_append.mp ha with h | h
        · exact List.mem_append_left _ h
        · exact List.mem_append_right _ (List.mem_cons_of_mem c h)
      exact mem_runArchives_fs destRoot (pre ++ c :: post) st a es err e ha' hdata he hnd helig

/-- C2 witness: a three-archive batch with the middle archive corrupt skips
exactly that archive, succeeds on the other two, and writes the eligible entry
of the last archive. -/
theorem archive_failure_isolation_witness :
    (runArchives [] ⟨[], [], []⟩
        [⟨"a.zip", ArchiveData.good [] none⟩, ⟨"bad.zip", ArchiveData.badZip⟩,
         ⟨"c.zip", ArchiveData.good [⟨["Google Photos", "photo.jpg"], false, 9⟩] none⟩]).skipped
      = [("bad.zip", invalidReason)] ∧
    (runArchives [] ⟨[], [], []⟩
        [⟨"a.zip", ArchiveData.good [] none⟩, ⟨"bad.zip", ArchiveData.badZip⟩,
         ⟨"c.zip", ArchiveData.good [⟨["Google Photos", "photo.jpg"], false, 9⟩] none⟩]).successful
      = ["a.zip", "c.zip"] ∧
    (∃ p, (p, 9) ∈ (runArchives [] ⟨[], [], []⟩
        [⟨"a.zip", ArchiveData.good [] none⟩, ⟨"bad.zip", ArchiveData.badZip⟩,
         ⟨"c.zip", ArchiveData.good [⟨["Google Photos", "photo.jpg"], false, 9⟩] none⟩]).fs) := by
  have h := (archive_failure_isolation [] ⟨[], [], []⟩).2.2.2
    [⟨"a.zip", ArchiveData.good [] none⟩] ⟨"bad.zip", ArchiveData.badZip⟩
    [⟨"c.zip", ArchiveData.good [⟨["Google Photos", "photo.jpg"], false, 9⟩] none⟩]
    rfl (by decide)
  refine ⟨h.1.trans (by decide), h.2.1.trans (by decide), ?_⟩
  exact h.2.2 ⟨"c.zip", ArchiveData.good [⟨["Google Photos", "photo.jpg"], false, 9⟩] none⟩
    [⟨["Google Photos", "photo.jpg"], false, 9⟩] none ⟨["Google Photos", "photo.jpg"], false, 9⟩
    (by decide) rfl (by decide) rfl (by decide)

unseal List.merge List.mergeSort in
/-- C8, counterexample: the listings `["A.zip", "a.zip"]` and
`["A.zip", "a.zip"]` reversed hold identical directory contents, yet the
enumerator orders them differently, because the stable sort breaks the
case-insensitive tie by native enumeration order. -/
theorem enumerate_native_order_dependence_cex :
    List.Perm ["A.zip", "a.zip"] ["a.zip", "A.zip"] ∧
    enumerateZips ["A.zip", "a.zip"] ≠ enumerateZips ["a.zip", "A.zip"] :=
  ⟨by decide, by decide⟩

/-- C8, amended: the enumerator produces exactly the top-level names ending in
the archive extension, sorted case-insensitively ascending; and *provided no
two archive names are equal case-insensitively*, identical directory contents
yield the identical order regardless of the filesystem's native enumeration
order (with case-insensitively-equal names, ties follow native order, per the
counterexample). -/
theorem enumerate_deterministic (l₁ l₂ : List String)
    (hperm : l₁.Perm l₂)
    (hnd : ((l₁.filter zipName).map lowerKey).Nodup) :
    enumerateZips l₁ = enumerateZips l₂ ∧
    List.Pairwise (fun a b => nameLe a b = true) (enumerateZips l₁) ∧
    (enumerateZips l₁).Perm (l₁.filter zipName) ∧
    (∀ n, n ∈ enumerateZips l₁ ↔ (n ∈ l₁ ∧ zipName n = true)) := by
  have perm₁ : (enumerateZips l₁).Perm (l₁.filter zipName) :=
    List.mergeSort_perm (l₁.filter zipName) nameLe
  have perm₂ : (enumerateZips l₂).Perm (l₂.filter zipName) :=
    List.mergeSort_perm (l₂.filter zipName) nameLe
  have hpf : (l₁.filter zipName).Perm (l₂.filter zipName) := hperm.filter zipName
  have hm : (enumerateZips l₁).Perm (enumerateZips l₂) :=
    (perm₁.trans hpf).trans perm₂.symm
  have sorted₁ : List.Pairwise (fun a b => nameLe a b = true) (enumerateZips l₁) :=
    List.sorted_mergeSort nameLe_trans nameLe_total (l₁.filter zipName)
  have sorted₂ : List.Pairwise (fun a b => nameLe a b = true) (enumerateZips l₂) :=
    List.sorted_mergeSort nameLe_trans nameLe_total (l₂.filter zipName)
  have smap₁ : List.Sorted (fun x y : List Char => lexLe x y = true)
      ((enumerateZips l₁).map lowerKey) :=
    List.Pairwise.map lowerKey (fun _ _ h => h) sorted₁
  have smap₂ : List.Sorted (fun x y : List Char => lexLe x y = true)
      ((enumerateZips l₂).map lowerKey) :=
    List.Pairwise.map lowerKey (fun _ _ h => h) sorted₂
  haveI : IsAntisymm (List Char) (fun x y => lexLe x y = true) := ⟨lexLe_antisymm⟩
  have hmapeq : (enumerateZips l₁).map lowerKey = (enumerateZips l₂).map lowerKey :=
    List.eq_of_perm_of_sorted (hm.map lowerKey) smap₁ smap₂
  have hnd₁ : ((enumerateZips l₁).map lowerKey).Nodup :=
    ((perm₁.map lowerKey).nodup_iff).mpr hnd
  refine ⟨eq_of_perm_of_map_eq lowerKey hm hmapeq hnd₁, sorted₁, perm₁, ?_⟩
  intro n
  rw [perm₁.mem_iff, List.mem_filter]

/-- C8 witness: two listings of the same contents in different native orders,
with pairwise case-insensitively-distinct names, enumerate identically. -/
theorem enumerate_deterministic_witness :
    enumerateZips ["B.zip", "a.zip", "x.txt"] = enumerateZips ["a.zip", "x.txt", "B.zip"] :=
  (enumerate_deterministic ["B.zip", "a.zip", "x.txt"] ["a.zip", "x.txt", "B.zip"]
    (by decide) (by decide)).1

end Script
